import Mathlib

/-!
Verification of the matrix-finder of CryptoMiniSat (src/matrixfinder.cpp).

The definitions below are a shallow embedding of `MatrixFinder::find_matrices`
and `MatrixFinder::setup_matrices_attach_remaining_cls`: the union-find style
partitioning of XOR constraints into connected components, the per-component
shape statistics, the admission policy deciding which components become
Gaussian-elimination matrices, and the reattachment of rejected constraints.

External collaborators (clause cleaning, XOR combining, variable mapping,
assignment lookup, the attach operation) are modelled as parameters, mirroring
the narrow interfaces the C++ code consumes them through.  Machine `uint32_t`
counters are modelled as `Nat` (no arithmetic in the shown code can overflow
them on realistic inputs), and C++ `double` ratios are modelled as `ℚ` with
exact division.
-/

namespace MatrixFinder

/-- An XOR constraint (class `Xor`): the ordered support variables, the
right-hand-side parity, clash variables from simplification, the triviality
flag, and the mutable matrix-membership tag (`1000` is the code's
"not in any matrix" sentinel, see `x.in_matrix = 1000` at matrixfinder.cpp:311). -/
structure Xor where
  vars : List Nat
  rhs : Bool
  clash_vars : List Nat
  trivial : Bool
  in_matrix : Nat
deriving DecidableEq, Repr

/-- Xor::size(): the number of support variables. -/
def Xor.size (x : Xor) : Nat := x.vars.length

/-- The part of an XOR constraint that is not the mutable matrix-membership
tag; used to state conservation of constraints across the run. -/
def Xor.content (x : Xor) : List Nat × Bool × List Nat × Bool :=
  (x.vars, x.rhs, x.clash_vars, x.trivial)

/-- The Gaussian-elimination configuration fields read by the matrix finder. -/
structure GaussConf where
  min_gauss_xor_clauses : Nat
  max_gauss_xor_clauses : Nat
  doMatrixFind : Bool
  max_matrix_rows : Nat
  max_matrix_columns : Nat
  min_matrix_rows : Nat
  max_num_matrices : Nat
deriving DecidableEq, Repr

/-- Solver context consumed by the sampling-ratio computation:
variable count, the bva map, variable-replacement resolution, outer-to-inner
mapping, and whether an internal variable currently has a truth value
(`solver->value(v) != l_Undef`). -/
structure SolverCtx where
  nVars : Nat
  map_to_with_bva : Nat → Nat
  get_var_replaced_with_outer : Nat → Nat
  map_outer_to_inter : Nat → Nat
  value_assigned : Nat → Bool

/-- External collaborators of `find_matrices`: the clause cleaner, the XOR
combiner (`XorFinder::xor_together_xors`, whose Bool result is `false` on a
detected contradiction), and the result of `Solver::attach_xorclauses` /
`Solver::okay()` on the paths that reach it. -/
structure Externals where
  clean : List Xor → List Xor
  xor_together : List Xor → List Xor × Bool
  attach_ok : Bool

/-- State of the partitioning loop: the variable-to-component map `table`
(`var_Undef` is `none`), the component-membership map `reverseTable`
(erased components are `none`), and the fresh-component counter `matrix_no`. -/
structure PartState where
  table : Nat → Option Nat
  reverseTable : Nat → Option (List Nat)
  matrix_no : Nat

/-- Initial partition state: `table` all-undefined, `reverseTable` empty,
`matrix_no = 0` (matrixfinder.cpp:103-106). -/
def initPart : PartState :=
  { table := fun _ => none, reverseTable := fun _ => none, matrix_no := 0 }

/-- Loop body of `MatrixFinder::belong_same_matrix` after the first component
has been recorded in `comp_num`. -/
def belong_aux (t : Nat → Option Nat) (comp_num : Nat) : List Nat → Bool
  | [] => true
  | v :: vs =>
    match t v with
    | none => false
    | some c => if c = comp_num then belong_aux t comp_num vs else false

/-- `MatrixFinder::belong_same_matrix` (matrixfinder.cpp:76-89): true iff every
variable of the constraint is already mapped and all to the same component
(vacuously true for an empty support). -/
def belong_same_matrix (t : Nat → Option Nat) : List Nat → Bool
  | [] => true
  | v :: vs =>
    match t v with
    | none => false
    | some c => belong_aux t c vs

/-- Insertion into a strictly sorted duplicate-free list; models insertion into
the `std::set<uint32_t> tomerge`. -/
def insertSorted (v : Nat) : List Nat → List Nat
  | [] => [v]
  | w :: ws =>
    if v < w then v :: w :: ws
    else if v = w then w :: ws
    else w :: insertSorted v ws

/-- The `std::set` built by inserting every element of a list in order. -/
def toSortedSet (l : List Nat) : List Nat :=
  l.foldl (fun acc v => insertSorted v acc) []

/-- The `tomerge.size() == 1` branch (matrixfinder.cpp:153-161): absorb the new
variables into the single touched component `into`. -/
def absorbInto (s : PartState) (newSet : List Nat) (into : Nat) : PartState :=
  { table := fun v => if v ∈ newSet then some into else s.table v
    reverseTable := fun c =>
      if c = into then some (((s.reverseTable into).getD []) ++ newSet)
      else s.reverseTable c
    matrix_no := s.matrix_no }

/-- The "move all to a new set" branch (matrixfinder.cpp:163-170): merge the
memberships of every touched component plus the new variables into a fresh
component, retiring the touched components. -/
def mergeIntoNew (s : PartState) (tomerge newSet : List Nat) : PartState :=
  let newSet2 := newSet ++ tomerge.foldr (fun c acc => ((s.reverseTable c).getD []) ++ acc) []
  { table := fun v => if v ∈ newSet2 then some s.matrix_no else s.table v
    reverseTable := fun c =>
      if c = s.matrix_no then some newSet2
      else if c ∈ tomerge then none
      else s.reverseTable c
    matrix_no := s.matrix_no + 1 }

/-- One iteration of the partitioning loop of `find_matrices`
(matrixfinder.cpp:143-171) on the support `x` of one XOR constraint. -/
def processXor (s : PartState) (x : List Nat) : PartState :=
  if belong_same_matrix s.table x then s
  else
    match toSortedSet (x.filterMap fun v => s.table v) with
    | [into] => absorbInto s (x.filter fun v => (s.table v).isNone) into
    | tomerge => mergeIntoNew s tomerge (x.filter fun v => (s.table v).isNone)

/-- The whole partitioning loop, fed the supports of the XOR constraints in
input order. -/
def runPartition (xs : List (List Nat)) : PartState :=
  xs.foldl processXor initPart

/-- Two variables occur together in some constraint of the list. -/
def linkedBy (xs : List (List Nat)) (v w : Nat) : Prop :=
  ∃ x, x ∈ xs ∧ v ∈ x ∧ w ∈ x

/-- Two variables are connected by a chain of constraints sharing variables,
directly or transitively. -/
def connectedBy (xs : List (List Nat)) : Nat → Nat → Prop :=
  Relation.TransGen (linkedBy xs)

/-- Two variables are mapped to the same (defined) component. -/
def SameComp (s : PartState) (v w : Nat) : Prop :=
  ∃ c, s.table v = some c ∧ s.table w = some c

/-- The component a constraint is counted into: `table[x[0]]`
(matrixfinder.cpp:214). -/
def comp_of (t : Nat → Option Nat) (x : Xor) : Option Nat :=
  x.vars.head?.bind t

/-- Accumulator of the single pass over `xorclauses`
(matrixfinder.cpp:209-221): per-component row count, summed constraint sizes,
and the bucket of constraints (`xorsInMatrix`). -/
structure XorScan where
  rows : Nat → Nat
  sum_xor_sizes : Nat → Nat
  buckets : Nat → List Xor

/-- Empty scan accumulator. -/
def initScan : XorScan :=
  { rows := fun _ => 0, sum_xor_sizes := fun _ => 0, buckets := fun _ => [] }

/-- One step of the scan: trivial constraints are skipped; otherwise the
constraint is counted into the component of its first variable.  (When that
variable is unmapped the C++ code fails its `assert(matrix < matrix_no)`; the
model leaves the accumulator unchanged there and the theorems carry the
corresponding well-formedness hypothesis.) -/
def scan_step (t : Nat → Option Nat) (acc : XorScan) (x : Xor) : XorScan :=
  if x.trivial then acc
  else
    match comp_of t x with
    | none => acc
    | some m =>
      { rows := fun j => if j = m then acc.rows j + 1 else acc.rows j
        sum_xor_sizes := fun j =>
          if j = m then acc.sum_xor_sizes j + x.size else acc.sum_xor_sizes j
        buckets := fun j => if j = m then acc.buckets j ++ [x] else acc.buckets j }

/-- The scan of the whole constraint list. -/
def scanXors (t : Nat → Option Nat) (xs : List Xor) : XorScan :=
  xs.foldl (scan_step t) initScan

/-- The `xorsInMatrix[i]` bucket after the scan. -/
def xorsInMatrix (t : Nat → Option Nat) (xs : List Xor) (i : Nat) : List Xor :=
  (scanXors t xs).buckets i

/-- Per-component shape statistics (`struct MatrixShape`). -/
structure MatrixShape where
  num : Nat
  rows : Nat
  cols : Nat
  sum_xor_sizes : Nat
  density : ℚ
deriving DecidableEq, Repr

/-- The shape record of component `i` (matrixfinder.cpp:200-225): `cols` is the
component's membership size, `rows` and `sum_xor_sizes` come from the scan.
Modelled from the spec: `MatrixShape::tot_size` and the initial density value
live in matrixfinder.h, which is not part of the shown sources; per the spec,
density is `sum_of_arities / (rows * cols)` when that product is non-zero and
`0` otherwise. -/
def mkShape (t : Nat → Option Nat) (revT : Nat → Option (List Nat))
    (xs : List Xor) (i : Nat) : MatrixShape :=
  let sc := scanXors t xs
  let rows := sc.rows i
  let cols := ((revT i).getD []).length
  let sum := sc.sum_xor_sizes i
  { num := i, rows := rows, cols := cols, sum_xor_sizes := sum
    density := if 0 < rows * cols then (sum : ℚ) / ((rows * cols : Nat) : ℚ) else 0 }

/-- Resolution of one externally-numbered sampling variable down to an internal
variable (matrixfinder.cpp:265-267): bva mapping, then variable-replacement
resolution, then outer-to-inner mapping. -/
def resolve_sampling_var (sctx : SolverCtx) (outside_var : Nat) : Nat :=
  sctx.map_outer_to_inter
    (sctx.get_var_replaced_with_outer (sctx.map_to_with_bva outside_var))

/-- Whether one sampling variable is counted as "inside the matrix"
(matrixfinder.cpp:269-275): it is already assigned a truth value, or it is a
valid internal variable marked `seen` (i.e. a member of the component). -/
def sampling_var_counted (sctx : SolverCtx) (comp : List Nat)
    (outside_var : Nat) : Bool :=
  let int_var := resolve_sampling_var sctx outside_var
  sctx.value_assigned int_var ||
    (decide (int_var < sctx.nVars) && decide (int_var ∈ comp))

/-- `ratio_sampling` (matrixfinder.cpp:255-281): counted sampling variables over
the total number of sampling variables (`ℚ` division; division by zero yields
`0`, matching for the decision's purposes the C++ `NaN >= 0.6` being false). -/
def ratio_sampling (sctx : SolverCtx) (comp : List Nat)
    (sampling : List Nat) : ℚ :=
  ((sampling.countP (sampling_var_counted sctx comp) : Nat) : ℚ) /
    ((sampling.length : Nat) : ℚ)

/-- Modelled from the spec: the sampling-ratio formula exactly as the
specification words it — the count of sampling variables that, after
resolution to an internal variable, either already have an assigned truth
value or belong to the component's membership set, divided by the total count
of sampling variables.  (The spec does not mention the code's
`int_var < nVars` bounds guard.) -/
def ratio_sampling_spec (sctx : SolverCtx) (comp : List Nat)
    (sampling : List Nat) : ℚ :=
  ((sampling.countP (fun ov =>
      sctx.value_assigned (resolve_sampling_var sctx ov) ||
        decide (resolve_sampling_var sctx ov ∈ comp)) : Nat) : ℚ) /
    ((sampling.length : Nat) : ℚ)

/-- The `use_matrix` decision chain for one component
(matrixfinder.cpp:237-301): the successive `if (use_matrix && ...)` size,
column, row and matrix-count checks, followed by the sampling-ratio override
when `rows > min_matrix_rows`. -/
def use_matrix_decision (conf : GaussConf) (sampling_configured : Bool)
    (rows cols realMatrixNum : Nat) (ratio : ℚ) : Bool :=
  let u0 := true
  let u1 := if u0 && decide (conf.max_matrix_rows < rows) then false else u0
  let u2 := if u1 && decide (conf.max_matrix_columns < cols) then false else u1
  let u3 := if u2 && decide (rows < conf.min_matrix_rows) then false else u2
  let u4 := if u3 && decide (conf.max_num_matrices ≤ realMatrixNum) then false else u3
  if conf.min_matrix_rows < rows then
    if sampling_configured then decide ((3 : ℚ) / 5 ≤ ratio) else u4
  else u4

/-- The mutable solver outputs of the admission loop: the general XOR pool
being rebuilt (`solver->xorclauses`, cleared at matrixfinder.cpp:222) and the
accepted matrices (`solver->gmatrices`), each recorded as its constraint
list. -/
structure AdmState where
  xorclauses : List Xor
  gmatrices : List (List Xor)
deriving DecidableEq, Repr

/-- Processing of one component in the admission loop
(matrixfinder.cpp:233-344): components with no rows are skipped; an accepted
component's bucket becomes a new matrix; a rejected component's constraints are
tagged with the `1000` sentinel and appended to the general pool. -/
def admit_step (sctx : SolverCtx) (conf : GaussConf)
    (sampling : Option (List Nat)) (t : Nat → Option Nat)
    (revT : Nat → Option (List Nat)) (xs : List Xor)
    (st : AdmState) (i : Nat) : AdmState :=
  let m := mkShape t revT xs i
  if m.rows = 0 then st
  else
    let ratio : ℚ :=
      match sampling with
      | some sv => ratio_sampling sctx ((revT i).getD []) sv
      | none => 0
    if use_matrix_decision conf sampling.isSome m.rows m.cols
        st.gmatrices.length ratio then
      { st with gmatrices := st.gmatrices ++ [xorsInMatrix t xs i] }
    else
      { st with xorclauses :=
          st.xorclauses ++ (xorsInMatrix t xs i).map fun x => { x with in_matrix := 1000 } }

/-- The `max_matrix_rows` bump (matrixfinder.cpp:192-198): with sampling
variables configured, raise `max_matrix_rows` to three times their count if it
is below that. -/
def bump_max_rows (conf : GaussConf) : Option (List Nat) → GaussConf
  | none => conf
  | some sv =>
    let size_at_least := sv.length * 3
    if conf.max_matrix_rows < size_at_least then
      { conf with max_matrix_rows := size_at_least }
    else conf

/-- Result of `setup_matrices_attach_remaining_cls`: the (possibly mutated)
configuration, the rebuilt general pool, the accepted matrices, and the
returned matrix count. -/
structure SetupResult where
  conf : GaussConf
  xorclauses : List Xor
  gmatrices : List (List Xor)
  realMatrixNum : Nat

/-- `MatrixFinder::setup_matrices_attach_remaining_cls`
(matrixfinder.cpp:191-352).  `order` is the sequence of component numbers in
the order the loop visits them; in the C++ code it arises from sorting the
shape records with `mysorter` (defined in matrixfinder.h, outside the shown
sources) and walking the sorted array backwards — the spec leaves that order
deliberately unspecified, so it is a parameter here. -/
def setup_matrices_attach_remaining_cls (sctx : SolverCtx) (conf0 : GaussConf)
    (sampling : Option (List Nat)) (t : Nat → Option Nat)
    (revT : Nat → Option (List Nat)) (order : List Nat)
    (xs : List Xor) : SetupResult :=
  let conf := bump_max_rows conf0 sampling
  let fin := order.foldl (admit_step sctx conf sampling t revT xs)
    { xorclauses := [], gmatrices := [] }
  { conf := conf, xorclauses := fin.xorclauses, gmatrices := fin.gmatrices
    realMatrixNum := fin.gmatrices.length }

/-- The outputs of `MatrixFinder::find_matrices`: the Bool return value, the
`matrix_created` out-parameter, the final general XOR pool and whether it was
reattached, the matrix registry and its scratch-queue size, the configuration,
and the partitioning maps. -/
structure FindResult where
  ok : Bool
  matrix_created : Bool
  xorclauses : List Xor
  attached : Bool
  gmatrices : List (List Xor)
  gqueuedata : Nat
  conf : GaussConf
  table : Nat → Option Nat
  reverseTable : Nat → Option (List Nat)
  matrix_no : Nat

/-- `MatrixFinder::find_matrices` (matrixfinder.cpp:94-189): external cleaning
and XOR combining (aborting with an unsatisfiable result on contradiction),
the three global short-circuit gates, the partitioning loop, and the admission
stage. -/
def find_matrices (ext : Externals) (sctx : SolverCtx) (conf : GaussConf)
    (sampling : Option (List Nat)) (order : List Nat)
    (input : List Xor) : FindResult :=
  let pre := ext.xor_together (ext.clean input)
  let xs := pre.1
  if !pre.2 then
    { ok := false, matrix_created := true, xorclauses := xs, attached := false
      gmatrices := [], gqueuedata := 0, conf := conf
      table := fun _ => none, reverseTable := fun _ => none, matrix_no := 0 }
  else if xs.length < conf.min_gauss_xor_clauses then
    { ok := ext.attach_ok, matrix_created := false, xorclauses := xs
      attached := true, gmatrices := [], gqueuedata := 0, conf := conf
      table := fun _ => none, reverseTable := fun _ => none, matrix_no := 0 }
  else if conf.max_gauss_xor_clauses < xs.length && sampling.isSome then
    { ok := ext.attach_ok, matrix_created := false, xorclauses := xs
      attached := true, gmatrices := [], gqueuedata := 0, conf := conf
      table := fun _ => none, reverseTable := fun _ => none, matrix_no := 0 }
  else if !conf.doMatrixFind then
    { ok := ext.attach_ok, matrix_created := true, xorclauses := xs
      attached := true, gmatrices := [], gqueuedata := 0, conf := conf
      table := fun _ => none, reverseTable := fun _ => none, matrix_no := 0 }
  else
    let p := runPartition (xs.map Xor.vars)
    let r := setup_matrices_attach_remaining_cls sctx conf sampling
      p.table p.reverseTable order xs
    { ok := ext.attach_ok, matrix_created := true, xorclauses := r.xorclauses
      attached := true, gmatrices := r.gmatrices
      gqueuedata := r.gmatrices.length, conf := r.conf
      table := p.table, reverseTable := p.reverseTable, matrix_no := p.matrix_no }

/-- The variable-to-component map and the component-membership map are mutual
inverses. -/
def TableRevInv (s : PartState) : Prop :=
  ∀ v c, s.table v = some c ↔ ∃ l, s.reverseTable c = some l ∧ v ∈ l

/-- Every live component identifier is below the fresh-component counter. -/
def FreshInv (s : PartState) : Prop :=
  ∀ c l, s.reverseTable c = some l → c < s.matrix_no

/-- The variables drawn into the component rebuilt while processing the
constraint `x`: the variables of `x` itself and every variable sharing a
pre-existing component with a variable of `x`. -/
def Touched (s : PartState) (x : List Nat) (v : Nat) : Prop :=
  v ∈ x ∨ ∃ a, a ∈ x ∧ ∃ c, s.table a = some c ∧ s.table v = some c

/-- Characterization of one non-fast-path step: all touched variables now map
to the single component `K`, untouched variables are unchanged. -/
def StepChar (s s' : PartState) (x : List Nat) (K : Nat) : Prop :=
  (∀ v, s'.table v = some K ↔ Touched s x v) ∧
  (∀ v, ¬ Touched s x v → s'.table v = s.table v)

/-- All invariants of the partitioning loop together: the two maps are mutual
inverses, component identifiers are below the counter, and two variables share
a component exactly when connected by a chain of processed constraints. -/
def PartInv (xs : List (List Nat)) (s : PartState) : Prop :=
  TableRevInv s ∧ FreshInv s ∧ ∀ v w, SameComp s v w ↔ connectedBy xs v w

/-- Membership test of one constraint in the bucket of component `j`. -/
def pbucket (t : Nat → Option Nat) (j : Nat) (x : Xor) : Bool :=
  !x.trivial && decide (comp_of t x = some j)

/-- Non-trivial constraints whose first-variable component is below `n`. -/
def keyLt (t : Nat → Option Nat) (n : Nat) (x : Xor) : Bool :=
  !x.trivial &&
    (match comp_of t x with
     | some c => decide (c < n)
     | none => false)

/-- Concrete fixture for witnesses: the XOR constraint v1 + v2 = 1. -/
def wXor1 : Xor :=
  { vars := [1, 2], rhs := true, clash_vars := [], trivial := false, in_matrix := 0 }

/-- Concrete fixture for witnesses: the XOR constraint v2 + v3 = 0. -/
def wXor2 : Xor :=
  { vars := [2, 3], rhs := false, clash_vars := [], trivial := false, in_matrix := 0 }

/-- Concrete fixture for witnesses: externals whose preprocessing is the
identity and reports no contradiction. -/
def wExt : Externals :=
  { clean := id, xor_together := fun l => (l, true), attach_ok := true }

/-- Concrete fixture for witnesses: a five-variable solver context with
identity variable maps and no assigned variables. -/
def wSctx : SolverCtx :=
  { nVars := 5, map_to_with_bva := id, get_var_replaced_with_outer := id
    map_outer_to_inter := id, value_assigned := fun _ => false }

/-- Concrete fixture for witnesses: a permissive configuration. -/
def wConf : GaussConf :=
  { min_gauss_xor_clauses := 0, max_gauss_xor_clauses := 10, doMatrixFind := true
    max_matrix_rows := 100, max_matrix_columns := 100, min_matrix_rows := 0
    max_num_matrices := 10 }

/-- Concrete fixture for witnesses: `wConf` with `max_matrix_rows = 1`. -/
def wConfSmallRows : GaussConf :=
  { wConf with max_matrix_rows := 1 }

/-- Concrete fixture for witnesses: a variable-to-component map putting
variables 1, 2, 3 into component 0. -/
def wTable : Nat → Option Nat :=
  fun v => if 1 ≤ v ∧ v ≤ 3 then some 0 else none

/-- Concrete fixture for witnesses: the membership map matching `wTable`. -/
def wRevT : Nat → Option (List Nat) :=
  fun c => if c = 0 then some [1, 2, 3] else none

/-! ### Basic lemmas about the partitioning primitives -/

theorem belong_aux_eq_true (t : Nat → Option Nat) (c : Nat) (l : List Nat) :
    belong_aux t c l = true ↔ ∀ v ∈ l, t v = some c := by
  induction l with
  | nil => simp [belong_aux]
  | cons v vs ih =>
    rw [List.forall_mem_cons]
    cases h : t v with
    | none => simp [belong_aux, h]
    | some c' =>
      by_cases hc : c' = c
      · subst hc; simp [belong_aux, h, ih]
      · simp [belong_aux, h, hc]

theorem belong_same_matrix_eq_true (t : Nat → Option Nat) (l : List Nat) :
    belong_same_matrix t l = true ↔ l = [] ∨ ∃ c, ∀ v ∈ l, t v = some c := by
  cases l with
  | nil => simp [belong_same_matrix]
  | cons v vs =>
    cases h : t v with
    | none =>
      simp only [belong_same_matrix, h]
      constructor
      · intro hfalse; cases hfalse
      · rintro (h' | ⟨c, hc⟩)
        · cases h'
        · rw [hc v (by simp)] at h; cases h
    | some c =>
      simp only [belong_same_matrix, h, belong_aux_eq_true]
      constructor
      · intro hall
        exact Or.inr ⟨c, by
          intro w hw
          rcases List.mem_cons.mp hw with rfl | hw
          · exact h
          · exact hall w hw⟩
      · rintro (h' | ⟨c', hc'⟩)
        · cases h'
        · have hv : c' = c := by
            have := hc' v (by simp)
            rw [h] at this
            exact (Option.some.inj this).symm
          subst hv
          intro w hw
          exact hc' w (List.mem_cons_of_mem _ hw)

theorem mem_insertSorted {v w : Nat} {l : List Nat} :
    v ∈ insertSorted w l ↔ v = w ∨ v ∈ l := by
  induction l with
  | nil => simp [insertSorted]
  | cons a as ih =>
    simp only [insertSorted]
    by_cases h1 : w < a
    · simp [h1]
    · by_cases h2 : w = a
      · subst h2
        simp [h1, List.mem_cons]
      · simp only [if_neg h1, if_neg h2, List.mem_cons, ih]
        tauto

theorem mem_toSortedSet {v : Nat} {l : List Nat} :
    v ∈ toSortedSet l ↔ v ∈ l := by
  have general : ∀ (l acc : List Nat),
      (v ∈ l.foldl (fun acc v => insertSorted v acc) acc ↔ v ∈ acc ∨ v ∈ l) := by
    intro l
    induction l with
    | nil => simp
    | cons a as ih =>
      intro acc
      rw [List.foldl_cons, ih, mem_insertSorted, List.mem_cons]
      tauto
  rw [toSortedSet, general l []]
  simp

theorem sameComp_symm {s : PartState} {v w : Nat} (h : SameComp s v w) :
    SameComp s w v := by
  rcases h with ⟨c, hv, hw⟩
  exact ⟨c, hw, hv⟩

/-! ### Generic lemmas about transitive closures -/

theorem transGen_symm {r : Nat → Nat → Prop} (hs : ∀ a b, r a b → r b a)
    {v w : Nat} (h : Relation.TransGen r v w) : Relation.TransGen r w v := by
  induction h with
  | single h => exact Relation.TransGen.single (hs _ _ h)
  | tail _ h₂ ih => exact Relation.TransGen.head (hs _ _ h₂) ih

theorem transGen_congr {r q : Nat → Nat → Prop} (h : ∀ a b, r a b ↔ q a b)
    {v w : Nat} : Relation.TransGen r v w ↔ Relation.TransGen q v w :=
  ⟨Relation.TransGen.mono fun a b => (h a b).mp,
   Relation.TransGen.mono fun a b => (h a b).mpr⟩

theorem transGen_or_absorb {r s : Nat → Nat → Prop}
    (habs : ∀ a b, s a b → Relation.TransGen r a b) {v w : Nat} :
    Relation.TransGen (fun a b => r a b ∨ s a b) v w ↔
      Relation.TransGen r v w := by
  constructor
  · intro h
    induction h with
    | single h =>
      rcases h with h | h
      · exact Relation.TransGen.single h
      · exact habs _ _ h
    | tail _ h₂ ih =>
      rcases h₂ with h | h
      · exact ih.tail h
      · exact ih.trans (habs _ _ h)
  · exact Relation.TransGen.mono fun a b hab => Or.inl hab

theorem transGen_or_within {r : Nat → Nat → Prop} {x : List Nat}
    (hsym : ∀ a b, r a b → r b a) {v w : Nat} :
    Relation.TransGen (fun a b => r a b ∨ (a ∈ x ∧ b ∈ x)) v w ↔
      (Relation.TransGen r v w ∨
        ((∃ a, a ∈ x ∧ (v = a ∨ Relation.TransGen r v a)) ∧
         (∃ b, b ∈ x ∧ (w = b ∨ Relation.TransGen r w b)))) := by
  constructor
  · intro h
    induction h with
    | @single b h =>
      rcases h with h | ⟨hv, hb⟩
      · exact Or.inl (Relation.TransGen.single h)
      · exact Or.inr ⟨⟨v, hv, Or.inl rfl⟩, ⟨b, hb, Or.inl rfl⟩⟩
    | @tail b c h₁ h₂ ih =>
      rcases h₂ with h | ⟨hb, hc⟩
      · rcases ih with ih | ⟨rv, ⟨a, ha, hba⟩⟩
        · exact Or.inl (ih.tail h)
        · refine Or.inr ⟨rv, ⟨a, ha, Or.inr ?_⟩⟩
          have hcb : Relation.TransGen r c b :=
            Relation.TransGen.single (hsym _ _ h)
          rcases hba with rfl | hba
          · exact hcb
          · exact hcb.trans hba
      · rcases ih with ih | ⟨rv, _⟩
        · exact Or.inr ⟨⟨b, hb, Or.inr ih⟩, ⟨c, hc, Or.inl rfl⟩⟩
        · exact Or.inr ⟨rv, ⟨c, hc, Or.inl rfl⟩⟩
  · rintro (h | ⟨⟨a, ha, hva⟩, ⟨b, hb, hwb⟩⟩)
    · exact Relation.TransGen.mono (fun _ _ hab => Or.inl hab) h
    · have step : Relation.TransGen (fun a b => r a b ∨ (a ∈ x ∧ b ∈ x)) a b :=
        Relation.TransGen.single (Or.inr ⟨ha, hb⟩)
      have h1 : Relation.TransGen (fun a b => r a b ∨ (a ∈ x ∧ b ∈ x)) v b := by
        rcases hva with rfl | hva
        · exact step
        · exact (Relation.TransGen.mono (fun _ _ h => Or.inl h) hva).trans step
      rcases hwb with rfl | hwb
      · exact h1
      · exact h1.trans
          (Relation.TransGen.mono (fun _ _ h => Or.inl h) (transGen_symm hsym hwb))

theorem linkedBy_symm {xs : List (List Nat)} {a b : Nat}
    (h : linkedBy xs a b) : linkedBy xs b a := by
  rcases h with ⟨x, hx, ha, hb⟩
  exact ⟨x, hx, hb, ha⟩

theorem connectedBy_nil {v w : Nat} : ¬ connectedBy [] v w := by
  intro h
  induction h with
  | single h => rcases h with ⟨x, hx, _⟩; cases hx
  | tail _ h₂ _ => rcases h₂ with ⟨x, hx, _⟩; cases hx

theorem linkedBy_append_singleton {xs : List (List Nat)} {x : List Nat}
    {a b : Nat} :
    linkedBy (xs ++ [x]) a b ↔ linkedBy xs a b ∨ (a ∈ x ∧ b ∈ x) := by
  constructor
  · rintro ⟨y, hy, hay, hby⟩
    rcases List.mem_append.mp hy with hy | hy
    · exact Or.inl ⟨y, hy, hay, hby⟩
    · rcases List.mem_singleton.mp hy with rfl
      exact Or.inr ⟨hay, hby⟩
  · rintro (⟨y, hy, hay, hby⟩ | ⟨hax, hbx⟩)
    · exact ⟨y, List.mem_append.mpr (Or.inl hy), hay, hby⟩
    · exact ⟨x, List.mem_append.mpr (Or.inr (by simp)), hax, hbx⟩

/-! ### Invariants of the partitioning loop -/

theorem table_lt_matrix_no {s : PartState} (hti : TableRevInv s)
    (hfi : FreshInv s) {v c : Nat} (h : s.table v = some c) :
    c < s.matrix_no := by
  rcases (hti v c).mp h with ⟨l, hl, _⟩
  exact hfi c l hl

theorem stepChar_sameComp {s s' : PartState} {x : List Nat} {K : Nat}
    (hc : StepChar s s' x K) (v w : Nat) :
    SameComp s' v w ↔
      ((Touched s x v ∧ Touched s x w) ∨
       (¬ Touched s x v ∧ ¬ Touched s x w ∧ SameComp s v w)) := by
  obtain ⟨h1, h2⟩ := hc
  constructor
  · rintro ⟨c, hv, hw⟩
    by_cases tv : Touched s x v
    · have hvK := (h1 v).mpr tv
      have hcK : c = K := by
        rw [hv] at hvK
        exact Option.some.inj hvK
      subst hcK
      exact Or.inl ⟨tv, (h1 w).mp hw⟩
    · have hv' : s.table v = some c := by rw [← h2 v tv]; exact hv
      by_cases tw : Touched s x w
      · have hwK := (h1 w).mpr tw
        have hcK : c = K := by
          rw [hw] at hwK
          exact Option.some.inj hwK
        subst hcK
        exact absurd ((h1 v).mp hv) tv
      · have hw' : s.table w = some c := by rw [← h2 w tw]; exact hw
        exact Or.inr ⟨tv, tw, c, hv', hw'⟩
  · rintro (⟨tv, tw⟩ | ⟨tv, tw, c, hv, hw⟩)
    · exact ⟨K, (h1 v).mpr tv, (h1 w).mpr tw⟩
    · exact ⟨c, by rw [h2 v tv]; exact hv, by rw [h2 w tw]; exact hw⟩

theorem touched_of_sameComp {s : PartState} {x : List Nat} {v w : Nat}
    (tv : Touched s x v) (hvw : SameComp s v w) : Touched s x w := by
  rcases hvw with ⟨c, hv, hw⟩
  rcases tv with hvx | ⟨a, hax, c', hac', hvc'⟩
  · exact Or.inr ⟨v, hvx, c, hv, hw⟩
  · have : c' = c := by
      rw [hv] at hvc'
      exact (Option.some.inj hvc').symm
    subst this
    exact Or.inr ⟨a, hax, c', hac', hw⟩

/-! ### The absorb branch -/

theorem absorb_touched_iff {s : PartState} {x : List Nat} {into : Nat}
    (hinto : ∃ a, a ∈ x ∧ s.table a = some into)
    (hall : ∀ a ∈ x, ∀ c, s.table a = some c → c = into) {v : Nat} :
    Touched s x v ↔ (v ∈ x ∨ s.table v = some into) := by
  constructor
  · rintro (hvx | ⟨a, hax, c, hac, hvc⟩)
    · exact Or.inl hvx
    · have := hall a hax c hac
      subst this
      exact Or.inr hvc
  · rintro (hvx | hv)
    · exact Or.inl hvx
    · rcases hinto with ⟨a, hax, ha⟩
      exact Or.inr ⟨a, hax, into, ha, hv⟩

theorem mem_filter_isNone {s : PartState} {x : List Nat} {v : Nat} :
    v ∈ x.filter (fun v => (s.table v).isNone) ↔ (v ∈ x ∧ s.table v = none) := by
  rw [List.mem_filter, Option.isNone_iff_eq_none]

theorem absorb_stepChar {s : PartState} {x : List Nat} {into : Nat}
    (hinto : ∃ a, a ∈ x ∧ s.table a = some into)
    (hall : ∀ a ∈ x, ∀ c, s.table a = some c → c = into) :
    StepChar s (absorbInto s (x.filter fun v => (s.table v).isNone) into) x into := by
  constructor
  · intro v
    rw [absorb_touched_iff hinto hall]
    by_cases hm : v ∈ x.filter (fun v => (s.table v).isNone)
    · simp only [absorbInto, if_pos hm]
      simp [(mem_filter_isNone.mp hm).1]
    · simp only [absorbInto, if_neg hm]
      constructor
      · exact fun h => Or.inr h
      · rintro (hvx | h)
        · rcases h' : s.table v with _ | c
          · exact absurd (mem_filter_isNone.mpr ⟨hvx, h'⟩) hm
          · rw [hall v hvx c h']
        · exact h
  · intro v tv
    rw [absorb_touched_iff hinto hall] at tv
    push_neg at tv
    simp only [absorbInto]
    rw [if_neg]
    intro hm
    exact tv.1 (mem_filter_isNone.mp hm).1

theorem absorb_inv {s : PartState} {x : List Nat} {into : Nat}
    (hti : TableRevInv s) (hfi : FreshInv s)
    (hinto : ∃ a, a ∈ x ∧ s.table a = some into) :
    TableRevInv (absorbInto s (x.filter fun v => (s.table v).isNone) into) ∧
    FreshInv (absorbInto s (x.filter fun v => (s.table v).isNone) into) := by
  obtain ⟨a, hax, ha⟩ := hinto
  obtain ⟨l0, hl0, _⟩ := (hti a into).mp ha
  constructor
  · intro v c
    simp only [absorbInto]
    by_cases hc : c = into
    · subst hc
      rw [if_pos rfl, hl0]
      simp only [Option.getD_some, Option.some.injEq, exists_eq_left']
      by_cases hm : v ∈ x.filter (fun v => (s.table v).isNone)
      · rw [if_pos hm]
        simp [List.mem_append, hm]
      · rw [if_neg hm, List.mem_append]
        constructor
        · intro hv
          obtain ⟨l, hl, hvl⟩ := (hti v c).mp hv
          rw [hl0] at hl
          exact Or.inl ((Option.some.inj hl) ▸ hvl)
        · rintro (hvl | hvl)
          · exact (hti v c).mpr ⟨l0, hl0, hvl⟩
          · exact absurd hvl hm
    · rw [if_neg hc]
      by_cases hm : v ∈ x.filter (fun v => (s.table v).isNone)
      · rw [if_pos hm]
        constructor
        · intro h
          exact absurd (Option.some.inj h).symm hc
        · rintro ⟨l, hl, hvl⟩
          have h2 := (hti v c).mpr ⟨l, hl, hvl⟩
          rw [(mem_filter_isNone.mp hm).2] at h2
          cases h2
      · rw [if_neg hm]
        exact hti v c
  · intro c l
    simp only [absorbInto]
    by_cases hc : c = into
    · subst hc
      intro _
      exact hfi c l0 hl0
    · rw [if_neg hc]
      exact hfi c l

/-! ### The merge branch -/

theorem mem_foldr_rev {s : PartState} {tomerge : List Nat} {v : Nat} :
    v ∈ tomerge.foldr (fun c acc => ((s.reverseTable c).getD []) ++ acc) [] ↔
      ∃ c, c ∈ tomerge ∧ v ∈ (s.reverseTable c).getD [] := by
  induction tomerge with
  | nil => simp
  | cons c cs ih =>
    simp only [List.foldr_cons, List.mem_append, ih, List.mem_cons]
    constructor
    · rintro (h | ⟨c', hc', hv⟩)
      · exact ⟨c, Or.inl rfl, h⟩
      · exact ⟨c', Or.inr hc', hv⟩
    · rintro ⟨c', rfl | hc', hv⟩
      · exact Or.inl hv
      · exact Or.inr ⟨c', hc', hv⟩

theorem merge_newSet2_iff {s : PartState} {x : List Nat} {tomerge : List Nat}
    (hti : TableRevInv s)
    (hmem : ∀ c, c ∈ tomerge ↔ ∃ a, a ∈ x ∧ s.table a = some c) {v : Nat} :
    (v ∈ (x.filter fun u => (s.table u).isNone) ++
        tomerge.foldr (fun c acc => ((s.reverseTable c).getD []) ++ acc) []) ↔
      Touched s x v := by
  rw [List.mem_append, mem_foldr_rev]
  constructor
  · rintro (hv | ⟨c, hc, hvg⟩)
    · exact Or.inl (mem_filter_isNone.mp hv).1
    · obtain ⟨a, hax, hac⟩ := (hmem c).mp hc
      obtain ⟨l, hl, _⟩ := (hti a c).mp hac
      rw [hl] at hvg
      exact Or.inr ⟨a, hax, c, hac, (hti v c).mpr ⟨l, hl, hvg⟩⟩
  · rintro (hvx | ⟨a, hax, c, hac, hvc⟩)
    · rcases h : s.table v with _ | c
      · exact Or.inl (mem_filter_isNone.mpr ⟨hvx, h⟩)
      · obtain ⟨l, hl, hvl⟩ := (hti v c).mp h
        refine Or.inr ⟨c, (hmem c).mpr ⟨v, hvx, h⟩, ?_⟩
        rw [hl]
        exact hvl
    · obtain ⟨l, hl, hvl⟩ := (hti v c).mp hvc
      refine Or.inr ⟨c, (hmem c).mpr ⟨a, hax, hac⟩, ?_⟩
      rw [hl]
      exact hvl

theorem merge_stepChar {s : PartState} {x : List Nat} {tomerge : List Nat}
    (hti : TableRevInv s) (hfi : FreshInv s)
    (hmem : ∀ c, c ∈ tomerge ↔ ∃ a, a ∈ x ∧ s.table a = some c) :
    StepChar s (mergeIntoNew s tomerge (x.filter fun u => (s.table u).isNone))
      x s.matrix_no := by
  constructor
  · intro v
    simp only [mergeIntoNew]
    by_cases hm : v ∈ (x.filter fun u => (s.table u).isNone) ++
        tomerge.foldr (fun c acc => ((s.reverseTable c).getD []) ++ acc) []
    · rw [if_pos hm]
      exact iff_of_true rfl ((merge_newSet2_iff hti hmem).mp hm)
    · rw [if_neg hm]
      exact iff_of_false
        (fun h => absurd (table_lt_matrix_no hti hfi h) (lt_irrefl _))
        (fun ht => absurd ((merge_newSet2_iff hti hmem).mpr ht) hm)
  · intro v tv
    simp only [mergeIntoNew]
    rw [if_neg]
    intro hm
    exact tv ((merge_newSet2_iff hti hmem).mp hm)

theorem merge_inv {s : PartState} {x : List Nat} {tomerge : List Nat}
    (hti : TableRevInv s) (hfi : FreshInv s)
    (hmem : ∀ c, c ∈ tomerge ↔ ∃ a, a ∈ x ∧ s.table a = some c) :
    TableRevInv (mergeIntoNew s tomerge (x.filter fun u => (s.table u).isNone)) ∧
    FreshInv (mergeIntoNew s tomerge (x.filter fun u => (s.table u).isNone)) := by
  have htom_lt : ∀ c ∈ tomerge, c < s.matrix_no := by
    intro c hc
    obtain ⟨a, _, hac⟩ := (hmem c).mp hc
    exact table_lt_matrix_no hti hfi hac
  constructor
  · intro v c
    simp only [mergeIntoNew]
    by_cases hcm : c = s.matrix_no
    · subst hcm
      rw [if_pos rfl]
      by_cases hm : v ∈ (x.filter fun u => (s.table u).isNone) ++
          tomerge.foldr (fun c acc => ((s.reverseTable c).getD []) ++ acc) []
      · rw [if_pos hm]
        exact iff_of_true rfl ⟨_, rfl, hm⟩
      · rw [if_neg hm]
        constructor
        · intro h
          exact absurd (table_lt_matrix_no hti hfi h) (lt_irrefl _)
        · rintro ⟨l, hl, hvl⟩
          rw [← Option.some.inj hl] at hvl
          exact absurd hvl hm
    · rw [if_neg hcm]
      by_cases hct : c ∈ tomerge
      · rw [if_pos hct]
        constructor
        · intro h
          by_cases hm : v ∈ (x.filter fun u => (s.table u).isNone) ++
              tomerge.foldr (fun c acc => ((s.reverseTable c).getD []) ++ acc) []
          · rw [if_pos hm] at h
            exact absurd (Option.some.inj h) fun h' => hcm h'.symm
          · rw [if_neg hm] at h
            obtain ⟨l, hl, hvl⟩ := (hti v c).mp h
            refine absurd (List.mem_append.mpr (Or.inr ?_)) hm
            rw [mem_foldr_rev]
            refine ⟨c, hct, ?_⟩
            rw [hl]
            exact hvl
        · rintro ⟨l, hl, _⟩
          cases hl
      · rw [if_neg hct]
        by_cases hm : v ∈ (x.filter fun u => (s.table u).isNone) ++
            tomerge.foldr (fun c acc => ((s.reverseTable c).getD []) ++ acc) []
        · rw [if_pos hm]
          constructor
          · intro h
            exact absurd (Option.some.inj h) fun h' => hcm h'.symm
          · rintro ⟨l, hl, hvl⟩
            have hvc := (hti v c).mpr ⟨l, hl, hvl⟩
            rcases List.mem_append.mp hm with hv | hv
            · rw [(mem_filter_isNone.mp hv).2] at hvc
              cases hvc
            · rw [mem_foldr_rev] at hv
              obtain ⟨c', hc', hvg⟩ := hv
              obtain ⟨a, _, hac'⟩ := (hmem c').mp hc'
              obtain ⟨l', hl', _⟩ := (hti a c').mp hac'
              rw [hl'] at hvg
              have hvc' := (hti v c').mpr ⟨l', hl', hvg⟩
              rw [hvc] at hvc'
              exact absurd (Option.some.inj hvc' ▸ hc') hct
        · rw [if_neg hm]
          exact hti v c
  · intro c l
    simp only [mergeIntoNew]
    by_cases hcm : c = s.matrix_no
    · subst hcm
      intro _
      exact Nat.lt_succ_self _
    · rw [if_neg hcm]
      by_cases hct : c ∈ tomerge
      · rw [if_pos hct]
        intro h
        cases h
      · rw [if_neg hct]
        intro h
        exact Nat.lt_succ_of_lt (hfi c l h)

/-! ### The full step and the loop invariant -/

theorem processXor_fast {s : PartState} {x : List Nat}
    (h : belong_same_matrix s.table x = true) : processXor s x = s := by
  simp [processXor, h]

theorem processXor_char {s : PartState} {x : List Nat}
    (hti : TableRevInv s) (hfi : FreshInv s)
    (hbsm : belong_same_matrix s.table x = false) :
    ∃ K, StepChar s (processXor s x) x K ∧
      TableRevInv (processXor s x) ∧ FreshInv (processXor s x) := by
  have hmem : ∀ c, c ∈ toSortedSet (x.filterMap fun v => s.table v) ↔
      ∃ a, a ∈ x ∧ s.table a = some c := by
    intro c
    rw [mem_toSortedSet, List.mem_filterMap]
  have hred : processXor s x =
      match toSortedSet (x.filterMap fun v => s.table v) with
      | [into] => absorbInto s (x.filter fun v => (s.table v).isNone) into
      | tomerge => mergeIntoNew s tomerge (x.filter fun v => (s.table v).isNone) := by
    rw [processXor, if_neg (by simp [hbsm])]
  rcases htm : toSortedSet (x.filterMap fun v => s.table v) with _ | ⟨into, _ | ⟨c2, rest⟩⟩
  · rw [htm] at hred hmem
    rw [hred]
    exact ⟨s.matrix_no, merge_stepChar hti hfi hmem,
      (merge_inv hti hfi hmem).1, (merge_inv hti hfi hmem).2⟩
  · rw [htm] at hred hmem
    rw [hred]
    have hinto : ∃ a, a ∈ x ∧ s.table a = some into :=
      (hmem into).mp (by simp)
    have hall : ∀ a ∈ x, ∀ c, s.table a = some c → c = into := by
      intro a hax c hac
      have := (hmem c).mpr ⟨a, hax, hac⟩
      simpa using this
    exact ⟨into, absorb_stepChar hinto hall,
      (absorb_inv hti hfi hinto).1, (absorb_inv hti hfi hinto).2⟩
  · rw [htm] at hred hmem
    rw [hred]
    exact ⟨s.matrix_no, merge_stepChar hti hfi hmem,
      (merge_inv hti hfi hmem).1, (merge_inv hti hfi hmem).2⟩

theorem runPartition_append_singleton (xs : List (List Nat)) (x : List Nat) :
    runPartition (xs ++ [x]) = processXor (runPartition xs) x := by
  simp [runPartition, List.foldl_append]

theorem connectedBy_append_singleton {xs : List (List Nat)} {x : List Nat}
    {v w : Nat} :
    connectedBy (xs ++ [x]) v w ↔
      Relation.TransGen (fun a b => linkedBy xs a b ∨ (a ∈ x ∧ b ∈ x)) v w :=
  transGen_congr fun _ _ => linkedBy_append_singleton

theorem runPartition_inv : ∀ xs : List (List Nat), PartInv xs (runPartition xs) := by
  intro xs
  induction xs using List.reverseRecOn with
  | nil =>
    refine ⟨?_, ?_, ?_⟩
    · intro v c
      simp [runPartition, initPart]
    · intro c l h
      simp [runPartition, initPart] at h
    · intro v w
      constructor
      · rintro ⟨c, hv, _⟩
        simp [runPartition, initPart] at hv
      · intro h
        exact absurd h connectedBy_nil
  | append_singleton xs x ih =>
    obtain ⟨hti, hfi, hsame⟩ := ih
    rw [runPartition_append_singleton]
    cases hb : belong_same_matrix (runPartition xs).table x with
    | true =>
      rw [processXor_fast hb]
      refine ⟨hti, hfi, ?_⟩
      intro v w
      have habs : ∀ a b, (a ∈ x ∧ b ∈ x) →
          Relation.TransGen (linkedBy xs) a b := by
        rintro a b ⟨hax, hbx⟩
        rcases (belong_same_matrix_eq_true _ _).mp hb with rfl | ⟨c, hc⟩
        · cases hax
        · exact (hsame a b).mp ⟨c, hc a hax, hc b hbx⟩
      rw [connectedBy_append_singleton, transGen_or_absorb habs]
      exact hsame v w
    | false =>
      obtain ⟨K, hchar, hti', hfi'⟩ := processXor_char hti hfi hb
      refine ⟨hti', hfi', ?_⟩
      intro v w
      have treach : ∀ u, Touched (runPartition xs) x u ↔
          ∃ a, a ∈ x ∧ (u = a ∨ Relation.TransGen (linkedBy xs) u a) := by
        intro u
        constructor
        · rintro (hux | ⟨a, hax, c, hac, huc⟩)
          · exact ⟨u, hux, Or.inl rfl⟩
          · exact ⟨a, hax, Or.inr ((hsame u a).mp ⟨c, huc, hac⟩)⟩
        · rintro ⟨a, hax, rfl | hconn⟩
          · exact Or.inl hax
          · obtain ⟨c, huc, hac⟩ := (hsame u a).mpr hconn
            exact Or.inr ⟨a, hax, c, hac, huc⟩
      rw [stepChar_sameComp hchar v w, connectedBy_append_singleton,
        transGen_or_within fun a b h => linkedBy_symm h]
      constructor
      · rintro (⟨tv, tw⟩ | ⟨_, _, hsvw⟩)
        · exact Or.inr ⟨(treach v).mp tv, (treach w).mp tw⟩
        · exact Or.inl ((hsame v w).mp hsvw)
      · rintro (hconn | ⟨rv, rw'⟩)
        · have hsvw := (hsame v w).mpr hconn
          by_cases tv : Touched (runPartition xs) x v
          · exact Or.inl ⟨tv, touched_of_sameComp tv hsvw⟩
          · refine Or.inr ⟨tv, ?_, hsvw⟩
            intro tw
            exact tv (touched_of_sameComp tw (sameComp_symm hsvw))
        · exact Or.inl ⟨(treach v).mpr rv, (treach w).mpr rw'⟩

/-! ### Definedness of the table after partitioning -/

theorem processXor_table_update (s : PartState) (y : List Nat) :
    ∃ (m : List Nat) (K : Nat), ∀ v,
      (processXor s y).table v = if v ∈ m then some K else s.table v := by
  rw [processXor]
  by_cases hb : belong_same_matrix s.table y = true
  · rw [if_pos hb]
    exact ⟨[], 0, fun v => by simp⟩
  · rw [if_neg hb]
    rcases htm : toSortedSet (y.filterMap fun v => s.table v) with _ | ⟨into, _ | ⟨c2, rest⟩⟩
    · exact ⟨_, _, fun v => rfl⟩
    · exact ⟨_, _, fun v => rfl⟩
    · exact ⟨_, _, fun v => rfl⟩

theorem processXor_table_isSome_mono {s : PartState} {y : List Nat} {v : Nat}
    (h : (s.table v).isSome) : ((processXor s y).table v).isSome := by
  obtain ⟨m, K, hup⟩ := processXor_table_update s y
  rw [hup v]
  by_cases hm : v ∈ m
  · rw [if_pos hm]; rfl
  · rw [if_neg hm]; exact h

theorem processXor_defines_mem {s : PartState} {y : List Nat} {v : Nat}
    (hv : v ∈ y) : ((processXor s y).table v).isSome := by
  rcases h : s.table v with _ | c
  · rw [processXor]
    by_cases hb : belong_same_matrix s.table y = true
    · rcases (belong_same_matrix_eq_true _ _).mp hb with rfl | ⟨c, hc⟩
      · cases hv
      · rw [hc v hv] at h; cases h
    · rw [if_neg hb]
      have hmf : v ∈ y.filter (fun u => (s.table u).isNone) :=
        mem_filter_isNone.mpr ⟨hv, h⟩
      rcases htm : toSortedSet (y.filterMap fun u => s.table u) with _ | ⟨into, _ | ⟨c2, rest⟩⟩
      · simp only [mergeIntoNew]
        rw [if_pos (List.mem_append.mpr (Or.inl hmf))]
        rfl
      · simp only [absorbInto]
        rw [if_pos hmf]
        rfl
      · simp only [mergeIntoNew]
        rw [if_pos (List.mem_append.mpr (Or.inl hmf))]
        rfl
  · exact processXor_table_isSome_mono (by rw [h]; rfl)

theorem foldl_processXor_isSome_mono {v : Nat} :
    ∀ (xs : List (List Nat)) (s : PartState),
      (s.table v).isSome → ((xs.foldl processXor s).table v).isSome := by
  intro xs
  induction xs with
  | nil => exact fun s h => h
  | cons y ys ih =>
    intro s h
    rw [List.foldl_cons]
    exact ih _ (processXor_table_isSome_mono h)

theorem runPartition_defines {v : Nat} :
    ∀ (xs : List (List Nat)) (s : PartState) (y : List Nat), y ∈ xs → v ∈ y →
      ((xs.foldl processXor s).table v).isSome := by
  intro xs
  induction xs with
  | nil => intro _ _ h; cases h
  | cons z zs ih =>
    intro s y hy hv
    rw [List.foldl_cons]
    rcases List.mem_cons.mp hy with rfl | hy
    · exact foldl_processXor_isSome_mono zs _ (processXor_defines_mem hv)
    · exact ih _ y hy hv

/-! ### Characterization of the scan over the constraints -/

theorem scan_char (t : Nat → Option Nat) (xs : List Xor) (j : Nat) :
    ∀ acc : XorScan,
      ((xs.foldl (scan_step t) acc).rows j =
        acc.rows j + xs.countP (pbucket t j)) ∧
      ((xs.foldl (scan_step t) acc).sum_xor_sizes j =
        acc.sum_xor_sizes j + ((xs.filter (pbucket t j)).map Xor.size).sum) ∧
      ((xs.foldl (scan_step t) acc).buckets j =
        acc.buckets j ++ xs.filter (pbucket t j)) := by
  induction xs with
  | nil => simp
  | cons x xs ih =>
    intro acc
    rw [List.foldl_cons, List.countP_cons, List.filter_cons]
    rcases ih (scan_step t acc x) with ⟨ihr, ihs, ihb⟩
    by_cases htriv : x.trivial
    · have hp : pbucket t j x = false := by simp [pbucket, htriv]
      rw [hp]
      refine ⟨?_, ?_, ?_⟩
      · rw [ihr]
        simp [scan_step, htriv]
      · rw [ihs]
        simp [scan_step, htriv]
      · rw [ihb]
        simp [scan_step, htriv]
    · rcases hcomp : comp_of t x with _ | m
      · have hp : pbucket t j x = false := by simp [pbucket, hcomp]
        rw [hp]
        refine ⟨?_, ?_, ?_⟩
        · rw [ihr]
          simp [scan_step, htriv, hcomp]
        · rw [ihs]
          simp [scan_step, htriv, hcomp]
        · rw [ihb]
          simp [scan_step, htriv, hcomp]
      · by_cases hj : j = m
        · subst hj
          have hp : pbucket t j x = true := by simp [pbucket, htriv, hcomp]
          rw [hp]
          refine ⟨?_, ?_, ?_⟩
          · rw [ihr]
            simp [scan_step, htriv, hcomp]; omega
          · rw [ihs]
            simp [scan_step, htriv, hcomp]; omega
          · rw [ihb]
            simp [scan_step, htriv, hcomp]
        · have hp : pbucket t j x = false := by
            simp [pbucket, hcomp, htriv]; omega
          rw [hp]
          refine ⟨?_, ?_, ?_⟩
          · rw [ihr]
            simp [scan_step, htriv, hcomp, hj]
          · rw [ihs]
            simp [scan_step, htriv, hcomp, hj]
          · rw [ihb]
            simp [scan_step, htriv, hcomp, hj]

theorem xorsInMatrix_eq_filter (t : Nat → Option Nat) (xs : List Xor) (i : Nat) :
    xorsInMatrix t xs i = xs.filter (pbucket t i) := by
  have h := (scan_char t xs i initScan).2.2
  rw [xorsInMatrix, scanXors, h]
  simp [initScan]

theorem scan_rows_eq (t : Nat → Option Nat) (xs : List Xor) (i : Nat) :
    (scanXors t xs).rows i = xs.countP (pbucket t i) := by
  have h := (scan_char t xs i initScan).1
  rw [scanXors, h]
  simp [initScan]

theorem scan_sum_eq (t : Nat → Option Nat) (xs : List Xor) (i : Nat) :
    (scanXors t xs).sum_xor_sizes i = ((xs.filter (pbucket t i)).map Xor.size).sum := by
  have h := (scan_char t xs i initScan).2.1
  rw [scanXors, h]
  simp [initScan]

theorem rows_eq_length_bucket (t : Nat → Option Nat) (xs : List Xor) (i : Nat) :
    (scanXors t xs).rows i = (xorsInMatrix t xs i).length := by
  rw [scan_rows_eq, xorsInMatrix_eq_filter, List.countP_eq_length_filter]

/-! ### The admission loop: conservation and tagging -/

theorem content_set_in_matrix (x : Xor) (n : Nat) :
    Xor.content { x with in_matrix := n } = Xor.content x := rfl

theorem admit_step_content (sctx : SolverCtx) (conf : GaussConf)
    (sampling : Option (List Nat)) (t : Nat → Option Nat)
    (revT : Nat → Option (List Nat)) (xs : List Xor) (st : AdmState) (i : Nat) :
    (((admit_step sctx conf sampling t revT xs st i).gmatrices.flatten ++
        (admit_step sctx conf sampling t revT xs st i).xorclauses).map Xor.content).Perm
      ((st.gmatrices.flatten ++ st.xorclauses).map Xor.content ++
        (xorsInMatrix t xs i).map Xor.content) := by
  simp only [admit_step]
  split
  · next hrows =>
    have hb : xorsInMatrix t xs i = [] := by
      have h := rows_eq_length_bucket t xs i
      have : (mkShape t revT xs i).rows = (scanXors t xs).rows i := rfl
      rw [this, h] at hrows
      exact List.length_eq_zero.mp hrows
    rw [hb]
    simp
  · split
    · have hperm : ((st.gmatrices.flatten ++ xorsInMatrix t xs i) ++ st.xorclauses).Perm
          ((st.gmatrices.flatten ++ st.xorclauses) ++ xorsInMatrix t xs i) := by
        rw [List.append_assoc, List.append_assoc]
        exact List.Perm.append_left _ List.perm_append_comm
      simpa [List.map_append] using hperm.map Xor.content
    · simp [List.map_append, List.map_map, Function.comp_def, content_set_in_matrix]


theorem admit_fold_content (sctx : SolverCtx) (conf : GaussConf)
    (sampling : Option (List Nat)) (t : Nat → Option Nat)
    (revT : Nat → Option (List Nat)) (xs : List Xor) :
    ∀ (order : List Nat) (st : AdmState),
      (((order.foldl (admit_step sctx conf sampling t revT xs) st).gmatrices.flatten ++
          (order.foldl (admit_step sctx conf sampling t revT xs) st).xorclauses).map
            Xor.content).Perm
        ((st.gmatrices.flatten ++ st.xorclauses).map Xor.content ++
          (order.flatMap (xorsInMatrix t xs)).map Xor.content) := by
  intro order
  induction order with
  | nil => simp
  | cons i rest ih =>
    intro st
    rw [List.foldl_cons]
    refine (ih _).trans ?_
    have h1 := admit_step_content sctx conf sampling t revT xs st i
    refine (h1.append_right _).trans ?_
    simp [List.flatMap_cons, List.map_append, List.append_assoc]

theorem admit_step_pool_tagged (sctx : SolverCtx) (conf : GaussConf)
    (sampling : Option (List Nat)) (t : Nat → Option Nat)
    (revT : Nat → Option (List Nat)) (xs : List Xor) (st : AdmState) (i : Nat)
    (h : ∀ x ∈ st.xorclauses, x.in_matrix = 1000) :
    ∀ x ∈ (admit_step sctx conf sampling t revT xs st i).xorclauses,
      x.in_matrix = 1000 := by
  simp only [admit_step]
  split
  · exact h
  · split
    · exact h
    · intro x hx
      rcases List.mem_append.mp hx with hx | hx
      · exact h x hx
      · obtain ⟨y, _, rfl⟩ := List.mem_map.mp hx
        rfl

theorem admit_fold_pool_tagged (sctx : SolverCtx) (conf : GaussConf)
    (sampling : Option (List Nat)) (t : Nat → Option Nat)
    (revT : Nat → Option (List Nat)) (xs : List Xor) :
    ∀ (order : List Nat) (st : AdmState),
      (∀ x ∈ st.xorclauses, x.in_matrix = 1000) →
      ∀ x ∈ (order.foldl (admit_step sctx conf sampling t revT xs) st).xorclauses,
        x.in_matrix = 1000 := by
  intro order
  induction order with
  | nil => exact fun st h => h
  | cons i rest ih =>
    intro st h
    rw [List.foldl_cons]
    exact ih _ (admit_step_pool_tagged sctx conf sampling t revT xs st i h)

theorem admit_step_pool_mono (sctx : SolverCtx) (conf : GaussConf)
    (sampling : Option (List Nat)) (t : Nat → Option Nat)
    (revT : Nat → Option (List Nat)) (xs : List Xor) (st : AdmState) (i : Nat)
    {y : Xor} (hy : y ∈ st.xorclauses) :
    y ∈ (admit_step sctx conf sampling t revT xs st i).xorclauses := by
  simp only [admit_step]
  split
  · exact hy
  · split
    · exact hy
    · exact List.mem_append.mpr (Or.inl hy)

theorem admit_fold_pool_mono (sctx : SolverCtx) (conf : GaussConf)
    (sampling : Option (List Nat)) (t : Nat → Option Nat)
    (revT : Nat → Option (List Nat)) (xs : List Xor) :
    ∀ (order : List Nat) (st : AdmState) {y : Xor}, y ∈ st.xorclauses →
      y ∈ (order.foldl (admit_step sctx conf sampling t revT xs) st).xorclauses := by
  intro order
  induction order with
  | nil => exact fun st _ h => h
  | cons i rest ih =>
    intro st y hy
    rw [List.foldl_cons]
    exact ih _ (admit_step_pool_mono sctx conf sampling t revT xs st i hy)

/-! ### Grouping the constraints by component -/

theorem filter_or_perm {α : Type} {p r : α → Bool} :
    ∀ l : List α, (∀ x ∈ l, ¬(p x = true ∧ r x = true)) →
      (l.filter (fun x => p x || r x)).Perm (l.filter p ++ l.filter r) := by
  intro l
  induction l with
  | nil => simp
  | cons a as ih =>
    intro hdisj
    have ih' := ih fun x hx => hdisj x (List.mem_cons_of_mem _ hx)
    rw [List.filter_cons, List.filter_cons, List.filter_cons]
    cases hp : p a with
    | true =>
      have hr : r a = false := by
        cases hr : r a with
        | true => exact absurd ⟨hp, hr⟩ (hdisj a (by simp))
        | false => rfl
      simp only [hp, hr, Bool.true_or, if_true]
      simpa using ih'.cons a
    | false =>
      cases hr : r a with
      | true =>
        simp only [hp, hr, Bool.false_or, if_true, if_false]
        refine (ih'.cons a).trans ?_
        exact List.perm_middle.symm
      | false =>
        simpa [hp, hr] using ih'

theorem keyLt_succ (t : Nat → Option Nat) (n : Nat) (x : Xor) :
    keyLt t (n + 1) x = (keyLt t n x || pbucket t n x) := by
  cases htriv : x.trivial with
  | true => simp [keyLt, pbucket, htriv]
  | false =>
    rcases hcomp : comp_of t x with _ | c
    · simp [keyLt, pbucket, htriv, hcomp]
    · simp only [keyLt, pbucket, htriv, hcomp, Bool.not_false, Bool.true_and]
      rw [← Bool.decide_or]
      congr 1
      simp [Nat.lt_succ_iff_lt_or_eq, eq_comm]

theorem flatMap_range_buckets (t : Nat → Option Nat) (xs : List Xor) :
    ∀ n : Nat,
      ((List.range n).flatMap (fun i => xs.filter (pbucket t i))).Perm
        (xs.filter (keyLt t n)) := by
  intro n
  induction n with
  | zero =>
    have h : xs.filter (keyLt t 0) = [] := by
      rw [List.filter_eq_nil_iff]
      intro x _
      cases htriv : x.trivial with
      | true => simp [keyLt, htriv]
      | false =>
        rcases hcomp : comp_of t x with _ | c
        · simp [keyLt, htriv, hcomp]
        · simp [keyLt, htriv, hcomp]
    simp [h]
  | succ n ih =>
    rw [List.range_succ, List.flatMap_append]
    have hco : (xs.filter (keyLt t (n + 1))).Perm
        (xs.filter (keyLt t n) ++ xs.filter (pbucket t n)) := by
      have heq : xs.filter (keyLt t (n + 1)) =
          xs.filter (fun x => keyLt t n x || pbucket t n x) :=
        List.filter_congr fun x _ => keyLt_succ t n x
      rw [heq]
      refine filter_or_perm xs ?_
      rintro x _ ⟨hk, hb⟩
      have h1 : ∃ c, comp_of t x = some c ∧ c < n := by
        rcases hcomp : comp_of t x with _ | c
        · simp [keyLt, hcomp] at hk
        · refine ⟨c, rfl, ?_⟩
          have h' : x.trivial = false ∧ c < n := by simpa [keyLt, hcomp] using hk
          exact h'.2
      obtain ⟨c, hc, hlt⟩ := h1
      have h2 : c = n := by
        have h' : x.trivial = false ∧ c = n := by simpa [pbucket, hc] using hb
        exact h'.2
      omega
    refine List.Perm.trans ?_ hco.symm
    simp only [List.flatMap_cons, List.flatMap_nil, List.append_nil]
    exact ih.append_right _

theorem filter_keyLt_eq_nontrivial (t : Nat → Option Nat) (n : Nat)
    (xs : List Xor)
    (hmap : ∀ x ∈ xs, x.trivial = false → ∃ i, comp_of t x = some i ∧ i < n) :
    xs.filter (keyLt t n) = xs.filter (fun x => !x.trivial) := by
  apply List.filter_congr
  intro x hx
  cases htriv : x.trivial with
  | true => simp [keyLt, htriv]
  | false =>
    obtain ⟨i, hc, hi⟩ := hmap x hx htriv
    simp [keyLt, htriv, hc, hi]

/-! ### The admission decision -/

theorem decision_override (conf : GaussConf) (rows cols rmn : Nat) (ratio : ℚ)
    (h : conf.min_matrix_rows < rows) :
    use_matrix_decision conf true rows cols rmn ratio =
      decide ((3 : ℚ) / 5 ≤ ratio) := by
  simp [use_matrix_decision, h]

theorem decision_oversized_no_sampling (conf : GaussConf) (rows cols rmn : Nat)
    (ratio : ℚ)
    (h : conf.max_matrix_rows < rows ∨ conf.max_matrix_columns < cols) :
    use_matrix_decision conf false rows cols rmn ratio = false := by
  rcases h with h | h
  · by_cases h2 : conf.min_matrix_rows < rows <;>
      simp [use_matrix_decision, h, h2]
  · by_cases h1 : conf.max_matrix_rows < rows <;>
      by_cases h2 : conf.min_matrix_rows < rows <;>
        simp [use_matrix_decision, h, h1, h2]

theorem bucket_nil_of_rows_zero {t : Nat → Option Nat}
    {revT : Nat → Option (List Nat)} {xs : List Xor} {i : Nat}
    (h : (mkShape t revT xs i).rows = 0) : xorsInMatrix t xs i = [] := by
  have h1 := rows_eq_length_bucket t xs i
  have h2 : (mkShape t revT xs i).rows = (scanXors t xs).rows i := rfl
  rw [h2, h1] at h
  exact List.length_eq_zero.mp h

theorem admit_step_reject (sctx : SolverCtx) (conf : GaussConf)
    (t : Nat → Option Nat) (revT : Nat → Option (List Nat)) (xs : List Xor)
    (st : AdmState) (i : Nat)
    (h : conf.max_matrix_rows < (mkShape t revT xs i).rows ∨
         conf.max_matrix_columns < (mkShape t revT xs i).cols) :
    admit_step sctx conf none t revT xs st i =
      { st with xorclauses := st.xorclauses ++
          (xorsInMatrix t xs i).map fun x => { x with in_matrix := 1000 } } := by
  simp only [admit_step]
  split
  · next hrows =>
    rw [bucket_nil_of_rows_zero hrows]
    simp
  · next hrows =>
    have hd : use_matrix_decision conf (none : Option (List Nat)).isSome
        (mkShape t revT xs i).rows (mkShape t revT xs i).cols
        st.gmatrices.length 0 = false :=
      decision_oversized_no_sampling conf _ _ _ _ h
    rw [if_neg (by rw [hd]; exact Bool.false_ne_true)]

theorem countP_congr_mem {α : Type} {p q : α → Bool} (l : List α)
    (h : ∀ x ∈ l, p x = q x) : l.countP p = l.countP q := by
  rw [List.countP_eq_length_filter, List.countP_eq_length_filter,
    List.filter_congr h]

/-! ### From the partition to the admission stage -/

theorem partition_maps_nontrivial {xs : List Xor}
    (hvars : ∀ x ∈ xs, x.trivial = false → x.vars ≠ []) :
    ∀ x ∈ xs, x.trivial = false →
      ∃ i, comp_of (runPartition (xs.map Xor.vars)).table x = some i ∧
        i < (runPartition (xs.map Xor.vars)).matrix_no := by
  intro x hx htriv
  obtain ⟨v, rest, hv⟩ := List.exists_cons_of_ne_nil (hvars x hx htriv)
  have hvmem : v ∈ x.vars := by rw [hv]; simp
  have hsome : ((runPartition (xs.map Xor.vars)).table v).isSome :=
    runPartition_defines (xs.map Xor.vars) initPart x.vars
      (List.mem_map_of_mem _ hx) hvmem
  rcases hsm : (runPartition (xs.map Xor.vars)).table v with _ | i
  · rw [hsm] at hsome
    cases hsome
  · obtain ⟨hti, hfi, _⟩ := runPartition_inv (xs.map Xor.vars)
    refine ⟨i, ?_, table_lt_matrix_no hti hfi hsm⟩
    simp [comp_of, hv, hsm]

/-! ### Claim theorems -/

/-- C1: for every input sequence of XOR constraints processed by the
partitioning loop, two variables are mapped to the same final component if
and only if they are connected by a chain of constraints sharing variables
(directly or transitively), and the final partition — as a same-component
relation — is the same regardless of the order the constraints are processed
in. -/
theorem partition_same_component_iff_connected_and_order_independent :
    (∀ (xs : List (List Nat)) (v w : Nat),
      SameComp (runPartition xs) v w ↔ connectedBy xs v w) ∧
    (∀ (xs ys : List (List Nat)), xs.Perm ys → ∀ v w : Nat,
      (SameComp (runPartition xs) v w ↔ SameComp (runPartition ys) v w)) := by
  have main : ∀ (xs : List (List Nat)) (v w : Nat),
      SameComp (runPartition xs) v w ↔ connectedBy xs v w :=
    fun xs => (runPartition_inv xs).2.2
  refine ⟨main, ?_⟩
  intro xs ys hperm v w
  rw [main xs v w, main ys v w]
  exact transGen_congr fun a b =>
    ⟨fun ⟨x, hx, ha, hb⟩ => ⟨x, hperm.mem_iff.mp hx, ha, hb⟩,
     fun ⟨x, hx, ha, hb⟩ => ⟨x, hperm.mem_iff.mpr hx, ha, hb⟩⟩

/-- Witness for C1 at a concrete input: processing the two constraints in the
opposite order still puts variables 1 and 3 in one component. -/
theorem partition_same_component_witness :
    SameComp (runPartition [[2, 3], [1, 2]]) 1 3 :=
  (partition_same_component_iff_connected_and_order_independent.2
    [[1, 2], [2, 3]] [[2, 3], [1, 2]] (by decide) 1 3).mp
    ⟨0, by decide, by decide⟩

/-- C9: after processing each constraint (i.e. after every prefix of the
input), the variable-to-component map and the component-membership map are
mutual inverses, and every variable occurs in the membership list of at most
one live component. -/
theorem table_reverseTable_mutual_inverses (xs : List (List Nat)) (k : Nat) :
    (∀ v c, (runPartition (xs.take k)).table v = some c ↔
      ∃ l, (runPartition (xs.take k)).reverseTable c = some l ∧ v ∈ l) ∧
    (∀ v c₁ c₂ l₁ l₂,
      (runPartition (xs.take k)).reverseTable c₁ = some l₁ →
      (runPartition (xs.take k)).reverseTable c₂ = some l₂ →
      v ∈ l₁ → v ∈ l₂ → c₁ = c₂) := by
  obtain ⟨hti, _, _⟩ := runPartition_inv (xs.take k)
  refine ⟨hti, ?_⟩
  intro v c₁ c₂ l₁ l₂ h1 h2 hv1 hv2
  have e1 := (hti v c₁).mpr ⟨l₁, h1, hv1⟩
  have e2 := (hti v c₂).mpr ⟨l₂, h2, hv2⟩
  rw [e1] at e2
  exact Option.some.inj e2

/-- Witness for C9 at a concrete input. -/
theorem table_reverseTable_mutual_inverses_witness :
    ∃ l, (runPartition ([[1, 2], [2, 3]].take 2)).reverseTable 0 = some l ∧ 1 ∈ l :=
  ((table_reverseTable_mutual_inverses [[1, 2], [2, 3]] 2).1 1 0).mp (by decide)

/-- C3: for a component with `rows` strictly above `min_matrix_rows`, when
sampling variables are configured the accept/reject decision equals exactly
the test `ratio_sampling ≥ 0.6`, whatever the row/column/matrix-count checks
said; and processing such a component accepts or rejects on that test alone. -/
theorem sampling_override_sole_determinant (conf : GaussConf)
    (rows cols realMatrixNum : Nat) (ratio : ℚ)
    (h : conf.min_matrix_rows < rows) :
    use_matrix_decision conf true rows cols realMatrixNum ratio =
      decide ((3 : ℚ) / 5 ≤ ratio) :=
  decision_override conf rows cols realMatrixNum ratio h

/-- Witness for C3: with `max_matrix_rows = 1` the component (5 rows, 99
columns, matrix cap already reached) would fail every earlier size check, yet
the decision is exactly the ratio test. -/
theorem sampling_override_sole_determinant_witness :
    ((⟨0, 10, true, 1, 1, 0, 10⟩ : GaussConf).min_matrix_rows < 5) ∧
    use_matrix_decision ⟨0, 10, true, 1, 1, 0, 10⟩ true 5 99 99 1 =
      decide ((3 : ℚ) / 5 ≤ (1 : ℚ)) :=
  ⟨by decide,
   sampling_override_sole_determinant ⟨0, 10, true, 1, 1, 0, 10⟩ 5 99 99 1 (by decide)⟩

/-- C7: with sampling variables configured, `ratio_sampling` equals the
spec formula: the number of sampling variables that, after bva and
variable-replacement resolution, are assigned a truth value or belong to the
component's membership, divided by the total number of sampling variables
(assuming, as holds for components built by the partitioner, that the
component's members are valid internal variables). -/
theorem ratio_sampling_matches_spec (sctx : SolverCtx) (comp : List Nat)
    (sampling : List Nat) (h : ∀ v ∈ comp, v < sctx.nVars) :
    ratio_sampling sctx comp sampling = ratio_sampling_spec sctx comp sampling := by
  rw [ratio_sampling, ratio_sampling_spec]
  have hcnt : sampling.countP (sampling_var_counted sctx comp) =
      sampling.countP (fun ov =>
        sctx.value_assigned (resolve_sampling_var sctx ov) ||
          decide (resolve_sampling_var sctx ov ∈ comp)) := by
    apply countP_congr_mem
    intro ov _
    by_cases hm : resolve_sampling_var sctx ov ∈ comp
    · simp [sampling_var_counted, hm, h _ hm]
    · simp [sampling_var_counted, hm]
  rw [hcnt]

/-- Witness for C7 at a concrete solver context. -/
theorem ratio_sampling_matches_spec_witness :
    (∀ v ∈ [1, 2], v < (⟨5, id, id, id, fun _ => false⟩ : SolverCtx).nVars) ∧
    ratio_sampling ⟨5, id, id, id, fun _ => false⟩ [1, 2] [1, 3] =
      ratio_sampling_spec ⟨5, id, id, id, fun _ => false⟩ [1, 2] [1, 3] :=
  ⟨by decide,
   ratio_sampling_matches_spec ⟨5, id, id, id, fun _ => false⟩ [1, 2] [1, 3] (by decide)⟩

/-- C10: if sampling variables are configured and `max_matrix_rows` is below
three times their count, `setup_matrices_attach_remaining_cls` raises
`max_matrix_rows` to that value; the change persists in the returned
configuration, and the whole run behaves as if the configuration had carried
the raised value from the start (the bump precedes every admission
decision). -/
theorem sampling_bump_max_matrix_rows (sctx : SolverCtx) (conf : GaussConf)
    (sv : List Nat) (t : Nat → Option Nat) (revT : Nat → Option (List Nat))
    (order : List Nat) (xs : List Xor)
    (h : conf.max_matrix_rows < sv.length * 3) :
    (setup_matrices_attach_remaining_cls sctx conf (some sv) t revT order xs).conf =
      { conf with max_matrix_rows := sv.length * 3 } ∧
    setup_matrices_attach_remaining_cls sctx conf (some sv) t revT order xs =
      setup_matrices_attach_remaining_cls sctx
        { conf with max_matrix_rows := sv.length * 3 } (some sv) t revT order xs := by
  have hb : bump_max_rows conf (some sv) =
      { conf with max_matrix_rows := sv.length * 3 } := by
    simp [bump_max_rows, h]
  have hb2 : bump_max_rows { conf with max_matrix_rows := sv.length * 3 } (some sv) =
      { conf with max_matrix_rows := sv.length * 3 } := by
    simp [bump_max_rows]
  constructor
  · simp [setup_matrices_attach_remaining_cls, hb]
  · simp [setup_matrices_attach_remaining_cls, hb, hb2]

/-- Witness for C10 at a concrete configuration (`max_matrix_rows = 2`, one
sampling variable, so the bound is raised to 3). -/
theorem sampling_bump_max_matrix_rows_witness :
    ((⟨0, 10, true, 2, 100, 0, 10⟩ : GaussConf).max_matrix_rows < [7].length * 3) ∧
    (setup_matrices_attach_remaining_cls ⟨5, id, id, id, fun _ => false⟩
        ⟨0, 10, true, 2, 100, 0, 10⟩ (some [7]) (fun _ => none) (fun _ => none)
        [] []).conf =
      { (⟨0, 10, true, 2, 100, 0, 10⟩ : GaussConf) with max_matrix_rows := [7].length * 3 } :=
  ⟨by decide,
   (sampling_bump_max_matrix_rows ⟨5, id, id, id, fun _ => false⟩
     ⟨0, 10, true, 2, 100, 0, 10⟩ [7] (fun _ => none) (fun _ => none) [] []
     (by decide)).1⟩

/-- C6: if the external XOR combining step reports a contradiction,
`find_matrices` returns an unsatisfiable result immediately: nothing is
reattached, no matrix is constructed, and no component-map entries exist. -/
theorem contradiction_aborts_immediately (ext : Externals) (sctx : SolverCtx)
    (conf : GaussConf) (sampling : Option (List Nat)) (order : List Nat)
    (input : List Xor)
    (h : (ext.xor_together (ext.clean input)).2 = false) :
    (find_matrices ext sctx conf sampling order input).ok = false ∧
    (find_matrices ext sctx conf sampling order input).attached = false ∧
    (find_matrices ext sctx conf sampling order input).gmatrices = [] ∧
    (∀ v, (find_matrices ext sctx conf sampling order input).table v = none) ∧
    (∀ c, (find_matrices ext sctx conf sampling order input).reverseTable c = none) ∧
    (find_matrices ext sctx conf sampling order input).matrix_no = 0 := by
  simp [find_matrices, h]

/-- Witness for C6 with an XOR combiner that reports a contradiction. -/
theorem contradiction_aborts_immediately_witness :
    ((⟨id, fun l => (l, false), true⟩ : Externals).xor_together
      ((⟨id, fun l => (l, false), true⟩ : Externals).clean [])).2 = false ∧
    (find_matrices ⟨id, fun l => (l, false), true⟩ ⟨5, id, id, id, fun _ => false⟩
      ⟨0, 10, true, 100, 100, 0, 10⟩ none [] []).ok = false :=
  ⟨rfl,
   (contradiction_aborts_immediately ⟨id, fun l => (l, false), true⟩
     ⟨5, id, id, id, fun _ => false⟩ ⟨0, 10, true, 100, 100, 0, 10⟩ none [] [] rfl).1⟩

/-- C4: when no sampling variables are configured, a component whose shape
exceeds `max_matrix_rows` or `max_matrix_columns` is rejected regardless of
its density or any other property: processing it appends its constraints,
tagged with the "not in any matrix" sentinel, to the general pool and builds
no matrix; and over a whole admission run, every constraint of such a
component ends up in the final general pool with the sentinel tag. -/
theorem oversized_component_rejected_without_sampling (sctx : SolverCtx)
    (conf : GaussConf) (t : Nat → Option Nat) (revT : Nat → Option (List Nat))
    (xs : List Xor) (st : AdmState) (order : List Nat) (i : Nat)
    (h : conf.max_matrix_rows < (mkShape t revT xs i).rows ∨
         conf.max_matrix_columns < (mkShape t revT xs i).cols) :
    (admit_step sctx conf none t revT xs st i =
      { st with xorclauses := st.xorclauses ++
          (xorsInMatrix t xs i).map fun x => { x with in_matrix := 1000 } }) ∧
    (i ∈ order → ∀ x ∈ xorsInMatrix t xs i,
      ({ x with in_matrix := 1000 } : Xor) ∈
        (setup_matrices_attach_remaining_cls sctx conf none t revT order xs).xorclauses) := by
  refine ⟨admit_step_reject sctx conf t revT xs st i h, ?_⟩
  intro hi x hx
  obtain ⟨o1, o2, rfl⟩ := List.append_of_mem hi
  have hbn : bump_max_rows conf none = conf := rfl
  simp only [setup_matrices_attach_remaining_cls, hbn]
  rw [List.foldl_append, List.foldl_cons]
  apply admit_fold_pool_mono
  rw [admit_step_reject sctx conf t revT xs
    (o1.foldl (admit_step sctx conf none t revT xs) ⟨[], []⟩) i h]
  exact List.mem_append.mpr (Or.inr (List.mem_map.mpr ⟨x, hx, rfl⟩))

/-- Witness for C4: a two-row component against `max_matrix_rows = 1` with no
sampling variables; its tagged constraints land in the final pool. -/
theorem oversized_component_rejected_witness :
    (wConfSmallRows.max_matrix_rows <
      (mkShape wTable wRevT [wXor1, wXor2] 0).rows ∨
     wConfSmallRows.max_matrix_columns <
      (mkShape wTable wRevT [wXor1, wXor2] 0).cols) ∧
    ((0 : Nat) ∈ [0] → ∀ x ∈ xorsInMatrix wTable [wXor1, wXor2] 0,
      ({ x with in_matrix := 1000 } : Xor) ∈
        (setup_matrices_attach_remaining_cls wSctx wConfSmallRows none wTable
          wRevT [0] [wXor1, wXor2]).xorclauses) :=
  ⟨Or.inl (by decide),
   (oversized_component_rejected_without_sampling wSctx wConfSmallRows wTable
     wRevT [wXor1, wXor2] ⟨[], []⟩ [0] 0 (Or.inl (by decide))).2⟩

/-- C8: for every final component of the partition, the shape record computed
before admission satisfies: `rows` equals the number of non-trivial
constraints whose first variable maps to that component, `cols` equals the
size of the component's membership set, `sum_xor_sizes` equals the summed
lengths of those constraints, and `density` equals
`sum_xor_sizes / (rows * cols)` when that product is non-zero and `0`
otherwise. -/
theorem shape_record_correct (xs : List Xor) (i : Nat)
    (h : i < (runPartition (xs.map Xor.vars)).matrix_no) :
    (mkShape (runPartition (xs.map Xor.vars)).table
        (runPartition (xs.map Xor.vars)).reverseTable xs i).rows =
      xs.countP (fun x => !x.trivial &&
        decide (comp_of (runPartition (xs.map Xor.vars)).table x = some i)) ∧
    (mkShape (runPartition (xs.map Xor.vars)).table
        (runPartition (xs.map Xor.vars)).reverseTable xs i).cols =
      (((runPartition (xs.map Xor.vars)).reverseTable i).getD []).length ∧
    (mkShape (runPartition (xs.map Xor.vars)).table
        (runPartition (xs.map Xor.vars)).reverseTable xs i).sum_xor_sizes =
      ((xs.filter (fun x => !x.trivial &&
        decide (comp_of (runPartition (xs.map Xor.vars)).table x = some i))).map
          Xor.size).sum ∧
    (mkShape (runPartition (xs.map Xor.vars)).table
        (runPartition (xs.map Xor.vars)).reverseTable xs i).density =
      (if 0 < (mkShape (runPartition (xs.map Xor.vars)).table
            (runPartition (xs.map Xor.vars)).reverseTable xs i).rows *
          (mkShape (runPartition (xs.map Xor.vars)).table
            (runPartition (xs.map Xor.vars)).reverseTable xs i).cols then
        ((mkShape (runPartition (xs.map Xor.vars)).table
            (runPartition (xs.map Xor.vars)).reverseTable xs i).sum_xor_sizes : ℚ) /
          (((mkShape (runPartition (xs.map Xor.vars)).table
              (runPartition (xs.map Xor.vars)).reverseTable xs i).rows *
            (mkShape (runPartition (xs.map Xor.vars)).table
              (runPartition (xs.map Xor.vars)).reverseTable xs i).cols : Nat) : ℚ)
      else 0) := by
  refine ⟨?_, rfl, ?_, rfl⟩
  · exact scan_rows_eq _ xs i
  · exact scan_sum_eq _ xs i

/-- Witness for C8 on the two-constraint instance: component 0 has two rows,
three columns, summed sizes 4. -/
theorem shape_record_correct_witness :
    (0 : Nat) < (runPartition ([wXor1, wXor2].map Xor.vars)).matrix_no ∧
    (mkShape (runPartition ([wXor1, wXor2].map Xor.vars)).table
        (runPartition ([wXor1, wXor2].map Xor.vars)).reverseTable [wXor1, wXor2] 0).rows =
      [wXor1, wXor2].countP (fun x => !x.trivial &&
        decide (comp_of (runPartition ([wXor1, wXor2].map Xor.vars)).table x = some 0)) :=
  ⟨by decide, (shape_record_correct [wXor1, wXor2] 0 (by decide)).1⟩

/-- C5 (amended): of the three global short-circuit cases of `find_matrices`,
the first two (too few XORs; too many XORs with sampling variables
configured) report `matrix_created = false`, while the third (matrix finding
disabled by configuration) leaves the out-parameter at its initial `true`; in
all three cases no partitioning is performed (no component-map entries, no
components), no elimination matrix is created, and the reattached general
pool is exactly the constraint set produced by the external preprocessing. -/
theorem short_circuit_gates (ext : Externals) (sctx : SolverCtx)
    (conf : GaussConf) (sampling : Option (List Nat)) (order : List Nat)
    (input : List Xor)
    (hok : (ext.xor_together (ext.clean input)).2 = true) :
    (((ext.xor_together (ext.clean input)).1.length < conf.min_gauss_xor_clauses →
      (find_matrices ext sctx conf sampling order input).matrix_created = false ∧
      (find_matrices ext sctx conf sampling order input).xorclauses =
        (ext.xor_together (ext.clean input)).1 ∧
      (find_matrices ext sctx conf sampling order input).attached = true ∧
      (find_matrices ext sctx conf sampling order input).gmatrices = [] ∧
      (∀ v, (find_matrices ext sctx conf sampling order input).table v = none) ∧
      (∀ c, (find_matrices ext sctx conf sampling order input).reverseTable c = none) ∧
      (find_matrices ext sctx conf sampling order input).matrix_no = 0)) ∧
    ((¬ (ext.xor_together (ext.clean input)).1.length < conf.min_gauss_xor_clauses →
      conf.max_gauss_xor_clauses < (ext.xor_together (ext.clean input)).1.length →
      sampling.isSome = true →
      (find_matrices ext sctx conf sampling order input).matrix_created = false ∧
      (find_matrices ext sctx conf sampling order input).xorclauses =
        (ext.xor_together (ext.clean input)).1 ∧
      (find_matrices ext sctx conf sampling order input).attached = true ∧
      (find_matrices ext sctx conf sampling order input).gmatrices = [] ∧
      (∀ v, (find_matrices ext sctx conf sampling order input).table v = none) ∧
      (∀ c, (find_matrices ext sctx conf sampling order input).reverseTable c = none) ∧
      (find_matrices ext sctx conf sampling order input).matrix_no = 0)) ∧
    ((¬ (ext.xor_together (ext.clean input)).1.length < conf.min_gauss_xor_clauses →
      ¬ (conf.max_gauss_xor_clauses < (ext.xor_together (ext.clean input)).1.length ∧
        sampling.isSome = true) →
      conf.doMatrixFind = false →
      (find_matrices ext sctx conf sampling order input).matrix_created = true ∧
      (find_matrices ext sctx conf sampling order input).xorclauses =
        (ext.xor_together (ext.clean input)).1 ∧
      (find_matrices ext sctx conf sampling order input).attached = true ∧
      (find_matrices ext sctx conf sampling order input).gmatrices = [] ∧
      (∀ v, (find_matrices ext sctx conf sampling order input).table v = none) ∧
      (∀ c, (find_matrices ext sctx conf sampling order input).reverseTable c = none) ∧
      (find_matrices ext sctx conf sampling order input).matrix_no = 0)) := by
  refine ⟨?_, ?_, ?_⟩
  · intro h1
    simp [find_matrices, hok, h1]
  · intro h1 h2 h3
    simp [find_matrices, hok, h1, h2, h3]
  · intro h1 h2 h3
    have hc2 : ¬ (conf.max_gauss_xor_clauses <
        (ext.xor_together (ext.clean input)).1.length ∧ sampling.isSome = true) := h2
    by_cases ha : conf.max_gauss_xor_clauses <
        (ext.xor_together (ext.clean input)).1.length
    · have hs : sampling.isSome = false := by
        cases hsv : sampling.isSome
        · rfl
        · exact absurd ⟨ha, hsv⟩ hc2
      simp [find_matrices, hok, h1, hs, h3]
    · simp [find_matrices, hok, h1, ha, h3]

/-- Witness for C5 at the first short-circuit (constraint count below
`min_gauss_xor_clauses`). -/
theorem short_circuit_gates_witness :
    ((wExt.xor_together (wExt.clean [wXor1])).2 = true) ∧
    ((wExt.xor_together (wExt.clean [wXor1])).1.length <
      ({ wConf with min_gauss_xor_clauses := 5 } : GaussConf).min_gauss_xor_clauses) ∧
    (find_matrices wExt wSctx { wConf with min_gauss_xor_clauses := 5 } none []
      [wXor1]).matrix_created = false :=
  ⟨rfl, by decide,
   ((short_circuit_gates wExt wSctx { wConf with min_gauss_xor_clauses := 5 } none []
     [wXor1] rfl).1 (by decide)).1⟩

/-- Counterexample to C5 as stated: in the third short-circuit case (matrix
finding disabled by configuration) the routine does not report "no matrix
created" — the out-parameter stays `true` although the matrix registry is
empty and nothing was partitioned. -/
theorem short_circuit_gate3_counterexample :
    ({ wConf with doMatrixFind := false } : GaussConf).doMatrixFind = false ∧
    (find_matrices wExt wSctx { wConf with doMatrixFind := false } none []
      [wXor1]).gmatrices = [] ∧
    (find_matrices wExt wSctx { wConf with doMatrixFind := false } none []
      [wXor1]).matrix_created = true := by
  refine ⟨rfl, ?_, ?_⟩ <;> decide

/-- C2: after a full run of `find_matrices` that reaches the admission stage,
every non-trivial constraint of the preprocessed set ends up in exactly one
place — inside exactly one accepted matrix or in the general pool tagged with
the "not in any matrix" sentinel: as multisets (up to the mutable tag), the
accepted matrices' contents plus the final pool equal the non-trivial
constraints, so trivial constraints appear in neither output and nothing is
duplicated or lost; and every pool constraint carries the sentinel. -/
theorem admission_conserves_constraints (ext : Externals) (sctx : SolverCtx)
    (conf : GaussConf) (sampling : Option (List Nat)) (order : List Nat)
    (input : List Xor)
    (hok : (ext.xor_together (ext.clean input)).2 = true)
    (hg1 : ¬ (ext.xor_together (ext.clean input)).1.length <
      conf.min_gauss_xor_clauses)
    (hg2 : ¬ (conf.max_gauss_xor_clauses <
      (ext.xor_together (ext.clean input)).1.length ∧ sampling.isSome = true))
    (hg3 : conf.doMatrixFind = true)
    (hvars : ∀ x ∈ (ext.xor_together (ext.clean input)).1,
      x.trivial = false → x.vars ≠ [])
    (horder : order.Perm (List.range
      (runPartition ((ext.xor_together (ext.clean input)).1.map Xor.vars)).matrix_no)) :
    ((((find_matrices ext sctx conf sampling order input).gmatrices.flatten ++
        (find_matrices ext sctx conf sampling order input).xorclauses).map
          Xor.content).Perm
      ((((ext.xor_together (ext.clean input)).1.filter
          fun x => !x.trivial).map Xor.content))) ∧
    (∀ x ∈ (find_matrices ext sctx conf sampling order input).xorclauses,
      x.in_matrix = 1000) := by
  have hred : (find_matrices ext sctx conf sampling order input).gmatrices =
      (setup_matrices_attach_remaining_cls sctx conf sampling
        (runPartition ((ext.xor_together (ext.clean input)).1.map Xor.vars)).table
        (runPartition ((ext.xor_together (ext.clean input)).1.map Xor.vars)).reverseTable
        order (ext.xor_together (ext.clean input)).1).gmatrices ∧
      (find_matrices ext sctx conf sampling order input).xorclauses =
      (setup_matrices_attach_remaining_cls sctx conf sampling
        (runPartition ((ext.xor_together (ext.clean input)).1.map Xor.vars)).table
        (runPartition ((ext.xor_together (ext.clean input)).1.map Xor.vars)).reverseTable
        order (ext.xor_together (ext.clean input)).1).xorclauses := by
    by_cases ha : conf.max_gauss_xor_clauses <
        (ext.xor_together (ext.clean input)).1.length
    · have hs : sampling.isSome = false := by
        cases hsv : sampling.isSome
        · rfl
        · exact absurd ⟨ha, hsv⟩ hg2
      constructor <;> simp [find_matrices, hok, hg1, hs, hg3]
    · constructor <;> simp [find_matrices, hok, hg1, ha, hg3]
  rw [hred.1, hred.2]
  have hbn : ∀ j, xorsInMatrix
      (runPartition ((ext.xor_together (ext.clean input)).1.map Xor.vars)).table
      (ext.xor_together (ext.clean input)).1 j =
      (ext.xor_together (ext.clean input)).1.filter
        (pbucket (runPartition ((ext.xor_together (ext.clean input)).1.map Xor.vars)).table j) :=
    xorsInMatrix_eq_filter _ _
  constructor
  · simp only [setup_matrices_attach_remaining_cls]
    refine (admit_fold_content sctx (bump_max_rows conf sampling) sampling _ _ _
      order ⟨[], []⟩).trans ?_
    simp only [AdmState.mk.injEq, List.flatten_nil, List.append_nil,
      List.nil_append, List.map_nil]
    have hfun : xorsInMatrix
        (runPartition ((ext.xor_together (ext.clean input)).1.map Xor.vars)).table
        (ext.xor_together (ext.clean input)).1 =
        fun j => (ext.xor_together (ext.clean input)).1.filter
          (pbucket (runPartition ((ext.xor_together (ext.clean input)).1.map Xor.vars)).table j) :=
      funext hbn
    rw [hfun]
    refine List.Perm.map Xor.content ?_
    refine (List.Perm.flatMap_right _ horder).trans ?_
    refine (flatMap_range_buckets _ _ _).trans ?_
    rw [filter_keyLt_eq_nontrivial _ _ _ (partition_maps_nontrivial hvars)]
  · intro x hx
    refine admit_fold_pool_tagged sctx (bump_max_rows conf sampling) sampling
      (runPartition ((ext.xor_together (ext.clean input)).1.map Xor.vars)).table
      (runPartition ((ext.xor_together (ext.clean input)).1.map Xor.vars)).reverseTable
      (ext.xor_together (ext.clean input)).1
      order ⟨[], []⟩ ?_ x ?_
    · intro y hy
      cases hy
    · simpa [setup_matrices_attach_remaining_cls] using hx

/-- Witness for C2 on a concrete two-constraint run. -/
theorem admission_conserves_constraints_witness :
    ((wExt.xor_together (wExt.clean [wXor1, wXor2])).2 = true) ∧
    ([0].Perm (List.range
      (runPartition ((wExt.xor_together (wExt.clean [wXor1, wXor2])).1.map
        Xor.vars)).matrix_no)) ∧
    ((((find_matrices wExt wSctx wConf none [0] [wXor1, wXor2]).gmatrices.flatten ++
        (find_matrices wExt wSctx wConf none [0] [wXor1, wXor2]).xorclauses).map
          Xor.content).Perm
      ((((wExt.xor_together (wExt.clean [wXor1, wXor2])).1.filter
          fun x => !x.trivial).map Xor.content))) :=
  ⟨rfl, by decide,
   (admission_conserves_constraints wExt wSctx wConf none [0] [wXor1, wXor2]
     rfl (by decide) (by decide) rfl (by decide) (by decide)).1⟩

end MatrixFinder

